import Mathlib

/-!
Verification development for the dock-cli documentation generator
(`dock_cli.py`).  The Python source is shallowly embedded below: pure
string manipulation is translated to structurally recursive functions on
`List Char`, the mutable namespace tree and the `name_db` registry become
explicit state passing over an inductive tree type (object identity is
modelled by an allocation counter), and code that can raise an exception
returns `Option` or `Except`.
-/

set_option autoImplicit false

/-! ## String primitives modelling the Python built-ins used by the source -/

/-- Model of Python `str.replace(pat, rep)` (all non-overlapping occurrences,
scanning left to right).  The first argument is fuel, always called with the
length of the scanned list, which a scan can never exhaust since every step
consumes at least one character; the fuel makes the recursion structural so
that concrete instances reduce inside the kernel.  Only used with nonempty
patterns. -/
def replaceFuel (pat rep : List Char) : Nat → List Char → List Char
  | _, [] => []
  | 0, l => l
  | fuel + 1, c :: rest =>
    if pat.isPrefixOf (c :: rest) && !pat.isEmpty then
      rep ++ replaceFuel pat rep fuel (List.drop (pat.length - 1) rest)
    else
      c :: replaceFuel pat rep fuel rest

/-- Python `s.replace(pat, rep)`. -/
def pyReplace (s pat rep : String) : String :=
  ⟨replaceFuel pat.data rep.data s.data.length s.data⟩

/-- Auxiliary scan for `splitDot`: `cur` is the reversed current chunk. -/
def splitDotGo : List Char → List Char → List String
  | [], cur => [⟨cur.reverse⟩]
  | c :: rest, cur =>
    if c = '.' then ⟨cur.reverse⟩ :: splitDotGo rest [] else splitDotGo rest (c :: cur)

/-- Model of Python `s.split('.')` (used by `group` on qualified names). -/
def splitDot (s : String) : List String :=
  splitDotGo s.data []

/-- Model of Python `s.endswith(pat)`. -/
def pyEndsWith (s pat : String) : Bool :=
  List.isSuffixOf pat.data s.data

/-- Does `pat` occur as a contiguous substring of `l`? -/
def containsSubGo (pat : List Char) : List Char → Bool
  | [] => pat.isEmpty
  | c :: rest => pat.isPrefixOf (c :: rest) || containsSubGo pat rest

/-- Model of Python `pat in s` on strings. -/
def containsSub (s pat : String) : Bool :=
  containsSubGo pat.data s.data

/-! ## Data model

`TypeRef` carries exactly the attributes `get_absolute_name` may read from a
Python object: `__name__` (absent on a bare `_GenericAlias`, in which case
`repr(obj)` is used and is stored in `reprStr`), `__qualname__`,
`__module__` and `__package__`.  `Element` is the record shape of a
discovered program element (spec section 6): its kind-discriminating shape,
`__name__`, `__doc__`, `__annotations__`, the `__dock__` payload, the
declared parameter list of a callable, and its source text. -/

structure TypeRef where
  name? : Option String := none
  reprStr : String := ""
  qualname? : Option String := none
  module? : Option String := none
  package? : Option String := none
  deriving DecidableEq, Repr

/-- Kind-discriminating shape of a discovered object: `isinstance(obj,
ModuleType)`, `isinstance(obj, type)`, or `callable(obj)` (the three shapes
the discovery contract produces). -/
inductive Shape where
  | module
  | typ
  | callable
  deriving DecidableEq, Repr

/-- The `__dock__` documentation-tag payload:
`{short, arguments, fields, sections}`. -/
structure Dock where
  short : Option String := none
  arguments : List (String × String) := []
  fields : List (String × String) := []
  sections : List (String × String) := []
  deriving DecidableEq, Repr

structure Element where
  name : String
  qualname? : Option String := none
  module? : Option String := none
  package? : Option String := none
  shape : Shape
  doc : Option String := none
  dock : Dock := {}
  params : List String := []
  annotations : List (String × Option TypeRef) := []
  source : String := ""
  deriving DecidableEq, Repr

/-- The naming attributes of an element, as read by `get_absolute_name`.
Every queue element has a `__name__` (modules always do, and `__dock__`ed
attributes are classes or callables). -/
def Element.toRef (e : Element) : TypeRef :=
  { name? := some e.name
    reprStr := ""
    qualname? := e.qualname?
    module? := e.module?
    package? := e.package? }

/-! ## NameResolver: `get_absolute_name` -/

/-- Direct embedding of `get_absolute_name` (dock_cli.py lines 60-80):

    if not hasattr(obj, '__name__') and isinstance(obj, _GenericAlias):
        name = repr(obj)
    else:
        name = obj.__name__
    full_name = getattr(obj, '__qualname__', '').replace('<locals>.', '')
    MODULE = getattr(obj, '__module__', getattr(obj, '__package__', name))
    if not full_name:
        absolute_name = f'{name.replace(".__init__", "")}'
    else:
        absolute_name = f'{MODULE.replace(".__init__", "")}.{full_name}'

A `TypeRef` with `name? = none` stands for a `_GenericAlias` without
`__name__` (any other object without `__name__` would raise, which the
discovery contract rules out). -/
def get_absolute_name (obj : TypeRef) : String :=
  let name := match obj.name? with
    | some n => n
    | none => obj.reprStr
  let full_name := pyReplace (obj.qualname?.getD "") "<locals>." ""
  let MODULE := obj.module?.getD (obj.package?.getD name)
  if full_name = "" then
    pyReplace name ".__init__" ""
  else
    pyReplace MODULE ".__init__" "" ++ "." ++ full_name

/-! ## Kinds and tree nodes

The Python wrapper classes `Package`, `Module`, `Class`, `Function` (and the
plain `Namespace` used for the root) become a kind tag.  A tree node records
the allocation identity (`id`, modelling Python object identity), its kind,
`name`, `absolute_name`, its back-reference `ref` to the source element
(`none` only for the root), and its ordered child mapping (a Python dict:
insertion order preserved, update in place). -/

inductive Kind where
  | namespaceK
  | package
  | module
  | cls
  | func
  deriving DecidableEq, Repr

/-- The `__class__.__name__` string of the wrapper class of each kind. -/
def kindName : Kind → String
  | .namespaceK => "Namespace"
  | .package => "Package"
  | .module => "Module"
  | .cls => "Class"
  | .func => "Function"

inductive Node where
  | leaf (id : Nat) (name : String) (absName : String) (ref : Element)
  | ns (id : Nat) (kind : Kind) (name : String) (absName : String)
      (ref? : Option Element) (children : List (String × Node))

/-- The local name of a node (`self.name`). -/
def Node.nodeName : Node → String
  | .leaf _ nm _ _ => nm
  | .ns _ _ nm _ _ _ => nm

/-- The immutable head data of a node: identity, kind, name, absolute name
and element back-reference — everything except the mutable child mapping. -/
def Node.topData : Node → Nat × Kind × String × String × Option Element
  | .leaf i nm ab r => (i, Kind.func, nm, ab, some r)
  | .ns i k nm ab r _ => (i, k, nm, ab, r)

def Node.isNsNode : Node → Bool
  | .leaf _ _ _ _ => false
  | .ns _ _ _ _ _ _ => true

/-! ## Python dict operations on association lists -/

/-- First entry with the given key (`d[k]` / `k in d`). -/
def dictGet? {α : Type} (k : String) : List (String × α) → Option α
  | [] => none
  | (k2, v) :: rest => if k2 = k then some v else dictGet? k rest

/-- Python `d[k] = v`: update in place if the key exists, else append. -/
def dictInsert {α : Type} (k : String) (v : α) : List (String × α) → List (String × α)
  | [] => [(k, v)]
  | (k2, v2) :: rest => if k2 = k then (k, v) :: rest else (k2, v2) :: dictInsert k v rest

/-- Apply `f` to the value stored at key `k` (no change if absent). -/
def dictMapAt {α : Type} (k : String) (f : α → α) : List (String × α) → List (String × α)
  | [] => []
  | (k2, v) :: rest => if k2 = k then (k2, f v) :: rest else (k2, v) :: dictMapAt k f rest

/-! ## NamespaceTree walking and insertion -/

/-- Python `namespace.get(name)`: a `KeyError` (missing key) or an
`AttributeError` (`Function` has no `get` method) both become `none`. -/
def childGet? : Node → String → Option Node
  | .leaf _ _ _ _, _ => none
  | .ns _ _ _ _ _ cs, k => dictGet? k cs

/-- The walk `for each_name in namespace_parts: namespace = namespace.get(each_name)`. -/
def walk : Node → List String → Option Node
  | t, [] => some t
  | t, p :: ps =>
    match childGet? t p with
    | none => none
    | some c => walk c ps

/-- Functional update: insert `v` (keyed by its local name) into the child
mapping of the namespace node found at path `ps`.  This models the Python
aliasing `namespace.new(type_to_register)` after the walk, since the walked
node is the tree node at that path. -/
def setChild : Node → List String → Node → Node
  | Node.ns i k nm ab r cs, [], v => Node.ns i k nm ab r (dictInsert v.nodeName v cs)
  | Node.ns i k nm ab r cs, p :: ps, v =>
      Node.ns i k nm ab r (dictMapAt p (fun c => setChild c ps v) cs)
  | t, _, _ => t

/-! ## ElementRegistry and build state -/

/-- A `root.name_db` entry.  In Python the registry stores a reference to the
very node object that sits in the tree; here the entry keeps the node
identity `id` together with the immutable node fields. -/
structure RegEntry where
  id : Nat
  kind : Kind
  name : String
  absName : String
  ref : Element
  deriving DecidableEq, Repr

/-- The immutable data of a registry entry, in the same shape as
`Node.topData`. -/
def entData (ent : RegEntry) : Nat × Kind × String × String × Option Element :=
  (ent.id, ent.kind, ent.name, ent.absName, some ent.ref)

/-- The whole mutable state of a build: the tree root, `root.name_db`, and
the allocation counter providing fresh object identities. -/
structure BuildState where
  root : Node
  name_db : List (String × RegEntry)
  next : Nat

/-- Python `root = Namespace('root', None, '')`, with identity 0. -/
def initState : BuildState :=
  { root := Node.ns 0 Kind.namespaceK "root" "" none []
    name_db := []
    next := 1 }

/-! ## Classification and insertion (`group`) -/

/-- Step 4 of `insert` (dock_cli.py lines 93-105): module whose `__name__`
ends with `__init__` is a `Package`, other module a `Module`, a type a
`Class`, any other callable a `Function`. -/
def classify (e : Element) : Kind :=
  match e.shape with
  | .module => if pyEndsWith e.name "__init__" then Kind.package else Kind.module
  | .typ => Kind.cls
  | .callable => Kind.func

def fqnOf (e : Element) : String := get_absolute_name e.toRef

/-- Python `fully_qualified_name.split('.')`. -/
def pathOf (e : Element) : List String := splitDot (fqnOf e)

/-- The `namespace_parts` list after `namespace_parts.pop(-1)`. -/
def parentPathOf (e : Element) : List String := (pathOf e).dropLast

/-- Python `first_name = namespace_parts.pop(-1)`; the split list is never empty,
so the default is never used. -/
def localNameOf (e : Element) : String := (pathOf e).getLastD ""

/-- The wrapper object `type_to_register` created by `group`, with a fresh
identity: `Function` instances are leaves, the namespace kinds start with an
empty child mapping. -/
def mkNode (i : Nat) (k : Kind) (nm : String) (e : Element) (ab : String) : Node :=
  match k with
  | Kind.func => Node.leaf i nm ab e
  | _ => Node.ns i k nm ab (some e) []

def newEntry (e : Element) (i : Nat) : RegEntry :=
  { id := i, kind := classify e, name := localNameOf e, absName := fqnOf e, ref := e }

/-- Embedding of `group(obj, root)` (dock_cli.py lines 83-108).  The walk
over the parent path must reach a namespace node: a missing key raises
`KeyError`, reaching a `Function` raises `AttributeError` (no `get`, or no
`new` for the final node) — all modelled as `none`.  All Python-side
mutation happens after the last fallible step, so a failing insert leaves
tree and registry untouched; the `Option` return models exactly that. -/
def group (e : Element) (st : BuildState) : Option BuildState :=
  match walk st.root (parentPathOf e) with
  | some (Node.ns _ _ _ _ _ _) =>
      some { root := setChild st.root (parentPathOf e)
                       (mkNode st.next (classify e) (localNameOf e) e (fqnOf e))
             name_db := dictInsert (fqnOf e) (newEntry e st.next) st.name_db
             next := st.next + 1 }
  | _ => none

/-- The build loop `while reordered: group(reordered.popleft(), root)`; any
exception aborts the whole run. -/
def buildAll : List Element → BuildState → Option BuildState
  | [], st => some st
  | e :: rest, st =>
    match group e st with
    | none => none
    | some st2 => buildAll rest st2

/-! ## Deduplicator (dock_cli.py lines 345-350)

    seen = set(queue)
    reordered = deque()
    for each in reversed(queue):
        if each.__name__ not in seen:
            reordered.appendleft(each)
            seen.add(each.__name__)

The Python `seen` set initially holds the queue *objects*; the membership
test compares them against the string `each.__name__`, and in CPython a
string never compares equal to a module, class or function object, so those
initial members can never match.  The set is modelled as a list of tagged
items to keep that faithful. -/

inductive SeenItem where
  | obj (e : Element)
  | str (s : String)

/-- Python `each.__name__ not in seen` (negated): a name only ever matches the
string members of the set. -/
def seenHasName (seen : List SeenItem) (n : String) : Bool :=
  seen.any fun it =>
    match it with
    | .obj _ => false
    | .str s => s = n

/-- The loop body over the reversed queue; `appendleft` prepends to the
accumulator. -/
def dedupGo : List Element → List SeenItem → List Element → List Element
  | [], _, acc => acc
  | e :: rest, seen, acc =>
    if seenHasName seen e.name then
      dedupGo rest seen acc
    else
      dedupGo rest (SeenItem.str e.name :: seen) (e :: acc)

/-- The deduplication pass: reverse scan seeded with `set(queue)`. -/
def dedup (queue : List Element) : List Element :=
  dedupGo queue.reverse (queue.map SeenItem.obj) []

/-- Proof-side reformulation: forward scan over the reversed queue keeping
the first occurrence of each name.  `dedup q = (keepFirst q.reverse []).reverse`
is proved below. -/
def keepFirst : List Element → List String → List Element
  | [], _ => []
  | e :: rest, ss =>
    if e.name ∈ ss then keepFirst rest ss else e :: keepFirst rest (e.name :: ss)

/-! ## Renderer

Each Python `print(...)` call becomes one entry of a `List String`
(`print` joins multiple arguments with a single space, hence the literal
`" \n"` suffixes below for `print(header, '\n')`). -/

abbrev DB := List (String × RegEntry)

/-- Generic single-character split (Python `str.split(c)`). -/
def splitCharGo (sep : Char) : List Char → List Char → List String
  | [], cur => [⟨cur.reverse⟩]
  | c :: rest, cur =>
    if c = sep then ⟨cur.reverse⟩ :: splitCharGo sep rest [] else splitCharGo sep rest (c :: cur)

def isWsChar (c : Char) : Bool := c = ' ' || c = '\t'

def isWsLine (l : List Char) : Bool := l.all isWsChar

def leadingWs : List Char → List Char
  | [] => []
  | c :: rest => if isWsChar c then c :: leadingWs rest else []

def commonPrefixCh : List Char → List Char → List Char
  | [], _ => []
  | _ :: _, [] => []
  | a :: as, b :: bs => if a = b then a :: commonPrefixCh as bs else []

def joinNl : List String → String
  | [] => ""
  | [l] => l
  | l :: rest => l ++ "\n" ++ joinNl rest

/-- Model of `textwrap.dedent`: the longest common leading-whitespace margin
of the lines with visible content is removed from every line;
whitespace-only lines are ignored for the margin and normalized to empty
lines. -/
def dedent (text : String) : String :=
  let lines := splitCharGo '\n' text.data []
  let margins := lines.filterMap fun l =>
    if isWsLine l.data then none else some (leadingWs l.data)
  let margin := match margins with
    | [] => []
    | m :: ms => ms.foldl commonPrefixCh m
  joinNl (lines.map fun l =>
    if isWsLine l.data then "" else ⟨l.data.drop margin.length⟩)

def packageHeader (e : Element) : String := "# Package `" ++ get_absolute_name e.toRef ++ "`"

def moduleHeader (e : Element) : String := "## Module `" ++ get_absolute_name e.toRef ++ "`"

def classHeader (e : Element) : String := "### Class `" ++ get_absolute_name e.toRef ++ "`"

def functionHeader (e : Element) : String := "#### Function `" ++ get_absolute_name e.toRef ++ "`"

/-- Python `if self.ref.__doc__: print(dedent(self.ref.__doc__), **out)`. -/
def docLines (e : Element) : List String :=
  match e.doc with
  | some d => if d = "" then [] else [dedent d]
  | none => []

/-- The dict comprehension
`{k: [get_absolute_name(v) if v else '?', ''] for k, v in ann.items()}`:
a falsy annotation value renders as the placeholder. -/
def buildOutput (ann : List (String × Option TypeRef)) : List (String × (String × String)) :=
  ann.map fun kv =>
    (kv.1, (match kv.2 with
            | some t => get_absolute_name t
            | none => "?", ""))

/-- Python `output[argument][1]` assignment on the first (unique) entry. -/
def dictSetSnd (k d : String) : List (String × (String × String)) → List (String × (String × String))
  | [] => []
  | (k2, td) :: rest => if k2 = k then (k2, (td.1, d)) :: rest else (k2, td) :: dictSetSnd k d rest

/-- Python `for argument, desc in self.ref.__dock__['arguments'].items():
output[argument][1] = f'*{desc}*'` — a documented argument missing from
`output` raises `KeyError`. -/
def applyDocArgs : List (String × String) → List (String × (String × String)) →
    Except String (List (String × (String × String)))
  | [], out => .ok out
  | (arg, desc) :: rest, out =>
    match dictGet? arg out with
    | some _ => applyDocArgs rest (dictSetSnd arg ("*" ++ desc ++ "*") out)
    | none => .error ("KeyError: " ++ arg)

/-- One line of the Arguments block: an interlink when the resolved type
name is a registry key (anchor `<Kind>-<qualifiedName>` with the kind under
which the name was registered), plain text otherwise. -/
def argLine (db : DB) (argument type_ desc : String) : String :=
  match dictGet? type_ db with
  | some ent =>
      "- `" ++ argument ++ "` -> [" ++ type_ ++ "](#" ++ kindName ent.kind ++ "-" ++ type_ ++
        "): " ++ desc
  | none => "- `" ++ argument ++ "` -> `" ++ type_ ++ "`: " ++ desc

/-- Embedding of `Function.generate` (dock_cli.py lines 232-290). -/
def functionGenerate (db : DB) (e : Element) : Except String (List String) :=
  let hd := [functionHeader e ++ " \n"]
  let shortPart := match e.dock.short with
    | some s => if s = "" then [] else ["> " ++ s ++ "\n"]
    | none => []
  let tailParts := fun (argsPart : List String) =>
    let sectionsPart := e.dock.sections.flatMap fun p => ["\n**" ++ p.1 ++ "**\n", dedent p.2]
    let srcPart := ["<details><summary>Source</summary>", "\n```python", dedent e.source,
      "```\n", "</details>\n"]
    hd ++ shortPart ++ argsPart ++ ["\n"] ++ docLines e ++ ["\n"] ++ sectionsPart ++ ["\n"] ++
      srcPart
  if e.annotations.isEmpty then .ok (tailParts [])
  else
    match applyDocArgs e.dock.arguments (buildOutput e.annotations) with
    | .error msg => .error msg
    | .ok merged =>
        let argLines := merged.filterMap fun atd =>
          if atd.1 = "return" then none else some (argLine db atd.1 atd.2.1 atd.2.2)
        let retLines := merged.filterMap fun atd =>
          if atd.1 = "return" then some ("**Return Type:** `" ++ atd.2.1 ++ "`") else none
        .ok (tailParts (["**Arguments**\n"] ++ argLines ++ ["\n"] ++ retLines))

def Node.kindOf : Node → Kind
  | .leaf _ _ _ _ => Kind.func
  | .ns _ k _ _ _ _ => k

def Node.absNameOf : Node → String
  | .leaf _ _ ab _ => ab
  | .ns _ _ _ ab _ _ => ab

/-- A Module interlink list entry
`- {type_name} [{obj.name}](#{type_name}-{absolue})` for a child node. -/
def childLink (c : Node) : String :=
  "- " ++ kindName c.kindOf ++ " [" ++ c.nodeName ++ "](#" ++ kindName c.kindOf ++ "-" ++
    c.absNameOf ++ ")"

/-- The `generate` methods of the namespace kinds (`Package.generate`,
`Module.generate`, `Class.generate`).  A leaf is never passed here, and the
root (kind `namespaceK`, `ref? = none`) is never generated — in Python
`Namespace.generate` would raise since `Namespace` has no `header`. -/
def nsGenerate (n : Node) : List String :=
  match n with
  | Node.leaf _ _ _ _ => []
  | Node.ns _ k _ _ ref? cs =>
    match ref? with
    | none => []
    | some e =>
      match k with
      | Kind.package => [packageHeader e ++ " \n"] ++ docLines e
      | Kind.module => [moduleHeader e ++ " \n"] ++ docLines e ++ cs.map (fun p => childLink p.2)
      | Kind.cls =>
          [classHeader e] ++
          (if e.dock.fields.isEmpty then [] else
            ["**Fields**\n"] ++ e.dock.fields.map fun fd => "- `" ++ fd.1 ++ "`: *" ++ fd.2 ++ "*") ++
          docLines e
      | _ => []

/-- Model of `Namespace.get_funcs`: the `Function`-instance children, in insertion
order (their wrapped elements). -/
def funcRefs (cs : List (String × Node)) : List Element :=
  cs.filterMap fun p =>
    match p.2 with
    | Node.leaf _ _ _ r => some r
    | _ => none

/-- Model of `Namespace.get_namespaces`: the namespace-node children, in insertion
order. -/
def nsChildrenOf (cs : List (String × Node)) : List Node :=
  cs.filterMap fun p =>
    match p.2 with
    | Node.ns _ _ _ _ _ _ => some p.2
    | _ => none

/-- Python `for func in namespace.get_funcs(): func.generate(name_db, out)` —
fused with the `isinstance(item, Function)` filter. -/
def genFuncs (db : DB) : List (String × Node) → Except String (List String)
  | [] => .ok []
  | (_, c) :: rest =>
    match c with
    | Node.leaf _ _ _ r => do
        let a ← functionGenerate db r
        let b ← genFuncs db rest
        .ok (a ++ b)
    | _ => genFuncs db rest

mutual

/-- Embedding of `generate_namespace` (dock_cli.py lines 293-301): all
direct `Function` children first, then each namespace child (its own
section followed by its subtree), depth-first, in insertion order. -/
def generate_namespace (db : DB) : Node → Except String (List String)
  | Node.leaf _ _ _ _ => .ok []
  | Node.ns _ _ _ _ _ cs => do
      let fs ← genFuncs db cs
      let rest ← genChildren db cs
      .ok (fs ++ rest)

/-- Python `for item in namespace.get_namespaces(): item.generate(name_db, out);
generate_namespace(item, name_db, file)` — fused with the namespace
filter. -/
def genChildren (db : DB) : List (String × Node) → Except String (List String)
  | [] => .ok []
  | (_, c) :: rest =>
    match c with
    | Node.leaf _ _ _ _ => genChildren db rest
    | Node.ns _ _ _ _ _ _ => do
        let sub ← generate_namespace db c
        let more ← genChildren db rest
        .ok (nsGenerate c ++ sub ++ more)

end

/-! ## Spec-side definitions (for checking claims against the code) -/

/-- Remove `.__init__` only when it is a suffix (the wording of claim C8). -/
def stripInitSuffix (s : String) : String :=
  if pyEndsWith s ".__init__" then ⟨s.data.take (s.data.length - 9)⟩ else s

/-- Claim C8 exactly as stated: owning-scope path absent means empty or
missing `__qualname__`; the initializer marker is removed only as a
suffix. -/
def qualifiedNameClaimC8 (obj : TypeRef) : String :=
  let declared := obj.name?.getD obj.reprStr
  let branch1 :=
    match obj.qualname? with
    | none => true
    | some q => q = ""
  if branch1 then stripInitSuffix declared
  else
    stripInitSuffix (obj.module?.getD (obj.package?.getD declared)) ++ "." ++
      pyReplace (obj.qualname?.getD "") "<locals>." ""

/-- Claim C8 as amended: every occurrence of the substring `.__init__` is
removed (not only a suffix), and the owning-scope path counts as absent when
it is empty after removing the `<locals>.` markers. -/
def qualifiedNameSpec (obj : TypeRef) : String :=
  let declared := obj.name?.getD obj.reprStr
  let owning := pyReplace (obj.qualname?.getD "") "<locals>." ""
  if owning = "" then
    pyReplace declared ".__init__" ""
  else
    pyReplace (obj.module?.getD (obj.package?.getD declared)) ".__init__" "" ++ "." ++ owning

/-! ## Concrete scenario data -/

/-- A module named `a` (qualified name `a`). -/
def modA : Element := { name := "a", shape := Shape.module }

/-- A function `b` defined in module `a` (qualified name `a.b`). -/
def funB : Element :=
  { name := "b", qualname? := some "b", module? := some "a", shape := Shape.callable }

/-- A package initializer `a.__init__` (qualified name `a` — the same as
`modA`). -/
def pkgA : Element := { name := "a.__init__", shape := Shape.module }

def c1CexElems : List Element := [modA, funB, pkgA]

/-- The state after building `c1CexElems`: inserting `pkgA` overwrote the
tree slot `a` (fresh empty `Package` node, identity 3) while `name_db`
still holds `a.b`. -/
def c1CexState : BuildState :=
  { root := Node.ns 0 Kind.namespaceK "root" "" none
      [("a", Node.ns 3 Kind.package "a" "a" (some pkgA) [])]
    name_db :=
      [("a", { id := 3, kind := Kind.package, name := "a", absName := "a", ref := pkgA }),
       ("a.b", { id := 2, kind := Kind.func, name := "b", absName := "a.b", ref := funB })]
    next := 4 }

/-- Package initializer `pkg.__init__` (qualified name `pkg`). -/
def pkgElem : Element := { name := "pkg.__init__", shape := Shape.module }

/-- Module `pkg.mod`. -/
def modElem : Element := { name := "pkg.mod", shape := Shape.module }

/-- Class `Widget` as defined in `pkg.mod` (qualified name `pkg.mod.Widget`). -/
def widgetAtMod : Element :=
  { name := "Widget", qualname? := some "Widget", module? := some "pkg.mod", shape := Shape.typ }

/-- The re-exported occurrence of `Widget` (qualified name `pkg.Widget`). -/
def widgetAtPkg : Element :=
  { name := "Widget", qualname? := some "Widget", module? := some "pkg", shape := Shape.typ }

/-- Discovery order: the defining module occurrence first, the re-export
last. -/
def c4Queue : List Element := [pkgElem, modElem, widgetAtMod, widgetAtPkg]

/-- The state after building the deduplicated `c4Queue`. -/
def c4State : BuildState :=
  { root := Node.ns 0 Kind.namespaceK "root" "" none
      [("pkg", Node.ns 1 Kind.package "pkg" "pkg" (some pkgElem)
        [("mod", Node.ns 2 Kind.module "mod" "pkg.mod" (some modElem) []),
         ("Widget", Node.ns 3 Kind.cls "Widget" "pkg.Widget" (some widgetAtPkg) [])])]
    name_db :=
      [("pkg", ⟨1, Kind.package, "pkg", "pkg", pkgElem⟩),
       ("pkg.mod", ⟨2, Kind.module, "mod", "pkg.mod", modElem⟩),
       ("pkg.Widget", ⟨3, Kind.cls, "Widget", "pkg.Widget", widgetAtPkg⟩)]
    next := 4 }

/-- The `_GenericAlias`-free counterexample object of claim C8: a module
whose name contains `.__init__` not as a suffix. -/
def c8CexObj : TypeRef := { name? := some "a.__init__b" }

/-- Counterexample function of claim C3: parameter `y` is declared but has
no annotation entry, so the renderer never lists it. -/
def c3CexFunc : Element :=
  { name := "f", qualname? := some "f", module? := some "m", shape := Shape.callable
    params := ["x", "y"], annotations := [("x", some { name? := some "int" })] }

/-- The full rendered output of `c3CexFunc` (each entry one `print`). -/
def c3CexOut : List String :=
  ["#### Function `m.f` \n", "**Arguments**\n", "- `x` -> `int`: ", "\n", "\n", "\n", "\n",
   "<details><summary>Source</summary>", "\n```python", "", "```\n", "</details>\n"]

/-- Witness function of claim C3 (amended): parameter `x` carries a falsy
annotation value, rendered as the `?` placeholder. -/
def c3WitFunc : Element :=
  { name := "g", qualname? := some "g", module? := some "m", shape := Shape.callable
    params := ["x"], annotations := [("x", none)] }

/-- Witness function of claim C10: documented argument `x` present in the
annotation mapping. -/
def c10WitFunc : Element :=
  { name := "h", qualname? := some "h", module? := some "m", shape := Shape.callable
    annotations := [("x", none)], dock := { arguments := [("x", "the x")] } }

/-- Leaf element for the claim C6 witness tree. -/
def c6FuncElem : Element :=
  { name := "f", qualname? := some "f", module? := some "m", shape := Shape.callable }

/-- Module element for the claim C6 witness tree. -/
def c6ModElem : Element := { name := "m", shape := Shape.module }

/-- Children of the claim C6 witness tree: one `Function` child followed by
one `Module` child. -/
def c6Children : List (String × Node) :=
  [("f", Node.leaf 1 "f" "m.f" c6FuncElem),
   ("m", Node.ns 2 Kind.module "m" "m" (some c6ModElem) [])]

/-- Witness tree of claim C6: a root with one `Function` child and one
`Module` child. -/
def c6Tree : Node :=
  Node.ns 0 Kind.namespaceK "root" "" none c6Children

/-! ## Further specification-side notions used in the claim statements -/

/-- Sequential `Except`-valued map, keeping every per-item output list. -/
def exceptMapAll {α β : Type} (f : α → Except String (List β)) :
    List α → Except String (List (List β))
  | [] => Except.ok []
  | a :: rest =>
    match f a with
    | Except.error m => Except.error m
    | Except.ok b =>
      match exceptMapAll f rest with
      | Except.error m => Except.error m
      | Except.ok bs => Except.ok (b :: bs)

/-- The output contributed by one namespace child of `generate_namespace`:
its own section followed by its recursively rendered subtree. -/
def renderNsChild (db : DB) (m : Node) : Except String (List String) :=
  match generate_namespace db m with
  | Except.error m2 => Except.error m2
  | Except.ok sub => Except.ok (nsGenerate m ++ sub)

/-- A namespace node is reachable at path `qs`. -/
def nsAt (t : Node) (qs : List String) : Prop :=
  ∃ n, walk t qs = some n ∧ n.isNsNode = true

/-- The tree path spelled by splitting `K` on dots leads to the very node
the registry maps `K` to (same identity and same immutable fields). -/
def consistentKey (st : BuildState) (K : String) (ent : RegEntry) : Prop :=
  ∃ n, walk st.root (splitDot K) = some n ∧ n.topData = entData ent

/-! # Theorems -/

/-! ## Deduplicator lemmas -/

theorem seenHasName_obj (os : List Element) (n : String) :
    seenHasName (os.map SeenItem.obj) n = false := by
  induction os with
  | nil => rfl
  | cons o os ih => simp [seenHasName] at ih ⊢

theorem seenHasName_iff (ss : List String) (os : List Element) (n : String) :
    seenHasName (ss.map SeenItem.str ++ os.map SeenItem.obj) n = true ↔ n ∈ ss := by
  induction ss with
  | nil =>
    rw [List.map_nil, List.nil_append, seenHasName_obj]
    simp
  | cons s ss ih =>
    simp only [seenHasName, List.map_cons, List.cons_append, List.any_cons] at ih ⊢
    simp only [Bool.or_eq_true, decide_eq_true_eq, List.mem_cons]
    constructor
    · rintro (h | h)
      · exact Or.inl h.symm
      · exact Or.inr (ih.mp h)
    · rintro (h | h)
      · exact Or.inl h.symm
      · exact Or.inr (ih.mpr h)

theorem dedupGo_eq_keepFirst (xs : List Element) (ss : List String) (os : List Element)
    (acc : List Element) :
    dedupGo xs (ss.map SeenItem.str ++ os.map SeenItem.obj) acc
      = (keepFirst xs ss).reverse ++ acc := by
  induction xs generalizing ss acc with
  | nil => simp [dedupGo, keepFirst]
  | cons e rest ih =>
    by_cases h : e.name ∈ ss
    · have hs : seenHasName (ss.map SeenItem.str ++ os.map SeenItem.obj) e.name = true :=
        (seenHasName_iff ss os e.name).mpr h
      simp [dedupGo, keepFirst, hs, h, ih]
    · have hs : seenHasName (ss.map SeenItem.str ++ os.map SeenItem.obj) e.name = false := by
        rw [Bool.eq_false_iff]
        intro hc
        exact h ((seenHasName_iff ss os e.name).mp hc)
      have hseen : SeenItem.str e.name :: (ss.map SeenItem.str ++ os.map SeenItem.obj)
          = ((e.name :: ss).map SeenItem.str ++ os.map SeenItem.obj) := rfl
      simp only [dedupGo, keepFirst, hs, Bool.false_eq_true, if_false, if_neg h, hseen,
        ih (e.name :: ss) (e :: acc)]
      simp

theorem dedup_eq_keepFirst (q : List Element) :
    dedup q = (keepFirst q.reverse []).reverse := by
  have h := dedupGo_eq_keepFirst q.reverse [] q []
  simpa [dedup] using h

theorem keepFirst_sublist (xs : List Element) (ss : List String) :
    (keepFirst xs ss).Sublist xs := by
  induction xs generalizing ss with
  | nil => simp [keepFirst]
  | cons e rest ih =>
    by_cases h : e.name ∈ ss
    · simpa [keepFirst, h] using (ih ss).cons e
    · simpa [keepFirst, h] using (ih (e.name :: ss)).cons₂ e

theorem keepFirst_filter_of_mem (xs : List Element) (ss : List String) (n : String)
    (h : n ∈ ss) :
    (keepFirst xs ss).filter (fun e => e.name == n) = [] := by
  induction xs generalizing ss with
  | nil => simp [keepFirst]
  | cons e rest ih =>
    by_cases he : e.name ∈ ss
    · simpa [keepFirst, he] using ih ss h
    · have hne : (e.name == n) = false := by
        simp only [beq_eq_false_iff_ne, ne_eq]
        rintro rfl
        exact he h
      simp only [keepFirst, if_neg he, List.filter_cons, hne, Bool.false_eq_true, if_false]
      exact ih (e.name :: ss) (List.mem_cons_of_mem _ h)

theorem keepFirst_filter_of_not_mem (xs : List Element) (ss : List String) (n : String)
    (h : n ∉ ss) :
    (keepFirst xs ss).filter (fun e => e.name == n)
      = (xs.filter (fun e => e.name == n)).take 1 := by
  induction xs generalizing ss with
  | nil => simp [keepFirst]
  | cons e rest ih =>
    by_cases he : e.name ∈ ss
    · have hne : (e.name == n) = false := by
        simp only [beq_eq_false_iff_ne, ne_eq]
        rintro rfl
        exact h he
      simp only [keepFirst, if_pos he, List.filter_cons, hne, Bool.false_eq_true, if_false]
      exact ih ss h
    · by_cases hn : e.name = n
      · subst hn
        simp only [keepFirst, if_neg he, List.filter_cons, beq_self_eq_true, if_pos]
        rw [keepFirst_filter_of_mem rest _ _ (List.mem_cons_self _ _)]
        simp
      · have hne : (e.name == n) = false := by
          simp only [beq_eq_false_iff_ne, ne_eq]
          exact hn
        have hn2 : n ∉ e.name :: ss := by
          intro hc
          rcases List.mem_cons.mp hc with hc | hc
          · exact hn hc.symm
          · exact h hc
        simp only [keepFirst, if_neg he, List.filter_cons, hne, Bool.false_eq_true, if_false]
        exact ih (e.name :: ss) hn2

theorem keepFirst_names_fresh (xs : List Element) (ss : List String) :
    ((keepFirst xs ss).map (fun e => e.name)).Nodup ∧
      ∀ n ∈ (keepFirst xs ss).map (fun e => e.name), n ∉ ss := by
  induction xs generalizing ss with
  | nil => simp [keepFirst]
  | cons e rest ih =>
    by_cases he : e.name ∈ ss
    · simpa [keepFirst, he] using ih ss
    · obtain ⟨hnd, hdisj⟩ := ih (e.name :: ss)
      refine ⟨?_, ?_⟩
      · simp only [keepFirst, if_neg he, List.map_cons, List.nodup_cons]
        exact ⟨fun hc => hdisj e.name hc (List.mem_cons_self _ _), hnd⟩
      · intro n hn
        simp only [keepFirst, if_neg he, List.map_cons, List.mem_cons] at hn
        rcases hn with rfl | hn
        · exact he
        · exact fun hc => hdisj n hn (List.mem_cons_of_mem _ hc)

theorem keepFirst_eq_self (xs : List Element) (ss : List String)
    (hnodup : (xs.map (fun e => e.name)).Nodup)
    (hdisj : ∀ n ∈ xs.map (fun e => e.name), n ∉ ss) :
    keepFirst xs ss = xs := by
  induction xs generalizing ss with
  | nil => rfl
  | cons e rest ih =>
    simp only [List.map_cons, List.nodup_cons] at hnodup
    have he : e.name ∉ ss := hdisj e.name (by simp)
    have hrest : ∀ n ∈ rest.map (fun e => e.name), n ∉ e.name :: ss := by
      intro n hn
      intro hc
      rcases List.mem_cons.mp hc with hc | hc
      · exact hnodup.1 (hc ▸ hn)
      · exact hdisj n (List.mem_cons_of_mem _ hn) hc
    simp only [keepFirst, if_neg he]
    rw [ih (e.name :: ss) hnodup.2 hrest]

theorem takeOne_reverse_eq_getLast? {α : Type} (l : List α) :
    (l.reverse.take 1).reverse = l.getLast?.toList := by
  rw [List.take_one, List.head?_reverse]
  cases l.getLast? <;> rfl

/-- Claim C2: the Deduplicator scans the discovery-ordered sequence in
reverse, keeps a set of already-seen short names, retains an element only
the first time (in reverse order) its name is seen, and prepends retained
elements; consequently the result is a subsequence of the input (original
relative order preserved), its names are pairwise distinct, and for every
name exactly the last occurrence in discovery order survives. -/
theorem c2_dedup_correct (q : List Element) :
    (dedup q).Sublist q ∧
    ((dedup q).map (fun e => e.name)).Nodup ∧
    ∀ n : String, (dedup q).filter (fun e => e.name == n)
        = (q.filter (fun e => e.name == n)).getLast?.toList := by
  rw [dedup_eq_keepFirst]
  refine ⟨?_, ?_, ?_⟩
  · have h := (keepFirst_sublist q.reverse []).reverse
    simpa using h
  · rw [List.map_reverse, List.nodup_reverse]
    exact (keepFirst_names_fresh q.reverse []).1
  · intro n
    rw [List.filter_reverse, keepFirst_filter_of_not_mem q.reverse [] n (by simp),
      List.filter_reverse]
    exact takeOne_reverse_eq_getLast? _

/-- Claim C9: the Deduplicator is idempotent. -/
theorem c9_dedup_idempotent (q : List Element) : dedup (dedup q) = dedup q := by
  have h1 : (dedup q).reverse = keepFirst q.reverse [] := by
    rw [dedup_eq_keepFirst, List.reverse_reverse]
  rw [dedup_eq_keepFirst (dedup q), h1,
    keepFirst_eq_self _ _ (keepFirst_names_fresh q.reverse []).1 (by simp), ← h1,
    List.reverse_reverse]

/-! ## Claim C4: the re-export scenario -/

/-- Claim C4: with two occurrences of `Widget` of qualified names
`pkg.mod.Widget` and `pkg.Widget`, discovered in that order, exactly the
re-exported occurrence survives deduplication and it is registered in the
ElementRegistry under the qualified name `pkg.Widget` (and under no other
key). -/
theorem c4_reexport_scenario :
    get_absolute_name widgetAtMod.toRef = "pkg.mod.Widget" ∧
    get_absolute_name widgetAtPkg.toRef = "pkg.Widget" ∧
    dedup c4Queue = [pkgElem, modElem, widgetAtPkg] ∧
    buildAll (dedup c4Queue) initState = some c4State ∧
    dictGet? "pkg.Widget" c4State.name_db
      = some ⟨3, Kind.cls, "Widget", "pkg.Widget", widgetAtPkg⟩ ∧
    (c4State.name_db.filter (fun kv => kv.2.ref.name == "Widget")).map Prod.fst
      = ["pkg.Widget"] := by
  refine ⟨rfl, rfl, by decide, rfl, rfl, by decide⟩

/-! ## Claim C8: qualified-name computation -/

/-- Claim C8 counterexample: the code removes every occurrence of the
substring `.__init__` (Python `str.replace`), not only a suffix; on the
declared name `a.__init__b` the code produces `ab` while the claim, as
stated, demands the name unchanged. -/
theorem c8_counterexample :
    get_absolute_name c8CexObj = "ab" ∧
    qualifiedNameClaimC8 c8CexObj = "a.__init__b" ∧
    get_absolute_name c8CexObj ≠ qualifiedNameClaimC8 c8CexObj := by
  refine ⟨rfl, rfl, by decide⟩

/-- Claim C8 (amended): the qualified name is the declared name with every
occurrence of the substring `.__init__` removed when the owning-scope path
is absent — empty or missing after removing the `<locals>.` markers — and
otherwise it is the enclosing module (every `.__init__` occurrence removed)
joined by a dot to the owning-scope path with every `<locals>.` marker
removed. -/
theorem c8_qualified_name_amended (obj : TypeRef) :
    get_absolute_name obj = qualifiedNameSpec obj := by
  cases h : obj.name? <;> simp [get_absolute_name, qualifiedNameSpec, h]

/-! ## Claim C5: interlink resolution in the Arguments block -/

/-- Claim C5: an argument line of a rendered Arguments block is an
interlink exactly when the resolved type name is a key of the
ElementRegistry; the anchor is then `<Kind>-<qualifiedName>` where `Kind`
is the kind under which that name was registered, and otherwise the type is
rendered as plain text. -/
theorem c5_interlink_resolution (db : DB) (a t d : String) :
    (∃ ent, dictGet? t db = some ent ∧
        argLine db a t d =
          "- `" ++ a ++ "` -> [" ++ t ++ "](#" ++ kindName ent.kind ++ "-" ++ t ++ "): " ++ d) ∨
    (dictGet? t db = none ∧
        argLine db a t d = "- `" ++ a ++ "` -> `" ++ t ++ "`: " ++ d) := by
  cases h : dictGet? t db with
  | none => exact Or.inr ⟨rfl, by simp [argLine, h]⟩
  | some ent => exact Or.inl ⟨ent, rfl, by simp [argLine, h]⟩

/-! ## Claims C3 and C10: the Arguments block -/

theorem dictSetSnd_mem (k d : String) (out : List (String × (String × String)))
    (p : String × (String × String)) (hp : p ∈ out) :
    ∃ d2, (p.1, (p.2.1, d2)) ∈ dictSetSnd k d out := by
  induction out with
  | nil => cases hp
  | cons q rest ih =>
    rcases List.mem_cons.mp hp with rfl | hp
    · by_cases hk : p.1 = k
      · exact ⟨d, by simp [dictSetSnd, hk]⟩
      · exact ⟨p.2.2, by simp [dictSetSnd, hk]⟩
    · obtain ⟨d2, hd2⟩ := ih hp
      by_cases hk : q.1 = k
      · simp only [dictSetSnd, if_pos hk]
        exact ⟨p.2.2, List.mem_cons_of_mem _ (by simpa using hp)⟩
      · simp only [dictSetSnd, if_neg hk]
        exact ⟨d2, List.mem_cons_of_mem _ hd2⟩

theorem applyDocArgs_mem (args : List (String × String))
    (out merged : List (String × (String × String))) (p : String × (String × String))
    (hok : applyDocArgs args out = Except.ok merged) (hp : p ∈ out) :
    ∃ d2, (p.1, (p.2.1, d2)) ∈ merged := by
  induction args generalizing out p with
  | nil =>
    simp only [applyDocArgs, Except.ok.injEq] at hok
    exact ⟨p.2.2, hok ▸ (by simpa using hp)⟩
  | cons a rest ih =>
    simp only [applyDocArgs] at hok
    cases hget : dictGet? a.1 out with
    | none => rw [hget] at hok; cases hok
    | some v =>
      rw [hget] at hok
      obtain ⟨d2, hd2⟩ := dictSetSnd_mem a.1 ("*" ++ a.2 ++ "*") out p hp
      obtain ⟨d3, hd3⟩ := ih _ _ hok hd2
      exact ⟨d3, by simpa using hd3⟩

/-- Claim C3 counterexample: the function `f(x: int, y)` declares parameter
`y` without an annotation; the rendered output does not mention `y` at all
(no line contains the fragment `` `y` ``), contradicting the claim that
such a parameter is still listed with type `?`.  The Arguments block is
driven purely by `__annotations__`, which unannotated parameters never
enter. -/
theorem c3_counterexample :
    c3CexFunc.params = ["x", "y"] ∧
    dictGet? "y" c3CexFunc.annotations = none ∧
    functionGenerate [] c3CexFunc = Except.ok c3CexOut ∧
    c3CexOut.all (fun l => !containsSub l "`y`") = true := by
  refine ⟨rfl, rfl, rfl, by decide⟩

/-- Claim C3 (amended): a parameter that appears in the annotation mapping
with a falsy annotation value (and is not the `return` slot) is listed in
the Arguments block with its type rendered as the placeholder `?`;
parameters absent from the annotation mapping are not listed at all. -/
theorem c3_missing_annotation_placeholder (db : DB) (e : Element) (out : List String)
    (k : String)
    (hok : functionGenerate db e = Except.ok out)
    (hk : (k, (none : Option TypeRef)) ∈ e.annotations)
    (hret : k ≠ "return")
    (hq : dictGet? "?" db = none) :
    ∃ d, ("- `" ++ k ++ "` -> `" ++ "?" ++ "`: " ++ d) ∈ out := by
  have hne : e.annotations.isEmpty = false := by
    cases h : e.annotations with
    | nil => rw [h] at hk; cases hk
    | cons a rest => rfl
  simp only [functionGenerate, hne, Bool.false_eq_true, if_false] at hok
  cases happ : applyDocArgs e.dock.arguments (buildOutput e.annotations) with
  | error m => rw [happ] at hok; cases hok
  | ok merged =>
    rw [happ] at hok
    have hmem : ((k, ("?", "")) : String × (String × String)) ∈ buildOutput e.annotations := by
      simp only [buildOutput, List.mem_map]
      exact ⟨(k, none), hk, rfl⟩
    obtain ⟨d, hd⟩ := applyDocArgs_mem _ _ _ _ happ hmem
    refine ⟨d, ?_⟩
    have hline : argLine db k "?" d
        ∈ merged.filterMap (fun atd =>
            if atd.1 = "return" then none else some (argLine db atd.1 atd.2.1 atd.2.2)) := by
      apply List.mem_filterMap.mpr
      exact ⟨(k, ("?", d)), hd, by simp [hret]⟩
    have hplain : argLine db k "?" d = "- `" ++ k ++ "` -> `" ++ "?" ++ "`: " ++ d := by
      simp [argLine, hq]
    simp only [Except.ok.injEq] at hok
    subst hok
    rw [← hplain]
    simp only [List.mem_append, List.mem_cons]
    tauto

theorem dictSetSnd_fst (k d : String) (out : List (String × (String × String))) :
    (dictSetSnd k d out).map Prod.fst = out.map Prod.fst := by
  induction out with
  | nil => rfl
  | cons q rest ih =>
    by_cases hk : q.1 = k
    · simp [dictSetSnd, hk]
    · simp [dictSetSnd, hk, ih]

theorem dictGet?_isSome_iff {α : Type} (k : String) (l : List (String × α)) :
    (dictGet? k l).isSome = true ↔ k ∈ l.map Prod.fst := by
  induction l with
  | nil => simp [dictGet?]
  | cons q rest ih =>
    by_cases hk : q.1 = k
    · simp [dictGet?, hk]
    · simp only [dictGet?, if_neg hk, List.map_cons, List.mem_cons]
      rw [ih]
      constructor
      · exact Or.inr
      · rintro (h | h)
        · exact absurd h.symm hk
        · exact h

theorem applyDocArgs_ok_iff (args : List (String × String))
    (out : List (String × (String × String))) :
    (∃ merged, applyDocArgs args out = Except.ok merged) ↔
      ∀ p ∈ args, p.1 ∈ out.map Prod.fst := by
  induction args generalizing out with
  | nil => simp [applyDocArgs]
  | cons a rest ih =>
    simp only [applyDocArgs]
    cases hget : dictGet? a.1 out with
    | none =>
      constructor
      · rintro ⟨m, hm⟩; cases hm
      · intro hall
        have := (dictGet?_isSome_iff a.1 out).mpr (hall a (List.mem_cons_self _ _))
        rw [hget] at this
        cases this
    | some v =>
      rw [ih (dictSetSnd a.1 ("*" ++ a.2 ++ "*") out)]
      rw [dictSetSnd_fst]
      constructor
      · intro hall p hp
        rcases List.mem_cons.mp hp with rfl | hp
        · exact (dictGet?_isSome_iff p.1 out).mp (by rw [hget]; rfl)
        · exact hall p hp
      · intro hall p hp
        exact hall p (List.mem_cons_of_mem _ hp)

/-- Claim C10: for a function element with a non-empty annotation mapping,
rendering succeeds exactly when every key of the documented-arguments
mapping also appears among the annotation keys; a documented argument
without an annotation entry makes the Renderer fail with a lookup error
instead of producing output. -/
theorem c10_documented_args_need_annotations (db : DB) (e : Element)
    (hann : e.annotations ≠ []) :
    (∃ out, functionGenerate db e = Except.ok out) ↔
      ∀ p ∈ e.dock.arguments, p.1 ∈ e.annotations.map Prod.fst := by
  have hne : e.annotations.isEmpty = false := by
    cases h : e.annotations with
    | nil => exact absurd h hann
    | cons a rest => rfl
  have hkeys : (buildOutput e.annotations).map Prod.fst = e.annotations.map Prod.fst := by
    simp [buildOutput]
  simp only [functionGenerate, hne, Bool.false_eq_true, if_false]
  rw [← hkeys, ← applyDocArgs_ok_iff e.dock.arguments (buildOutput e.annotations)]
  cases happ : applyDocArgs e.dock.arguments (buildOutput e.annotations) with
  | error m =>
    constructor
    · rintro ⟨out, hout⟩; cases hout
    · rintro ⟨merged, hm⟩; cases hm
  | ok merged =>
    constructor
    · intro _; exact ⟨merged, rfl⟩
    · intro _; exact ⟨_, rfl⟩

theorem c3_missing_annotation_placeholder_witness :
    ∃ d, ("- `" ++ "x" ++ "` -> `" ++ "?" ++ "`: " ++ d)
      ∈ ["#### Function `m.g` \n", "**Arguments**\n", "- `x` -> `?`: ", "\n", "\n", "\n", "\n",
         "<details><summary>Source</summary>", "\n```python", "", "```\n", "</details>\n"] :=
  c3_missing_annotation_placeholder [] c3WitFunc _ "x" rfl (by decide) (by decide) rfl

theorem c10_documented_args_need_annotations_witness :
    ∃ out, functionGenerate [] c10WitFunc = Except.ok out :=
  (c10_documented_args_need_annotations [] c10WitFunc (by decide)).mpr (by decide)

/-! ## Claim C6: renderer traversal order -/

theorem funcRefs_cons_leaf (k : String) (i : Nat) (nm ab : String) (r : Element)
    (rest : List (String × Node)) :
    funcRefs ((k, Node.leaf i nm ab r) :: rest) = r :: funcRefs rest := by
  simp [funcRefs]

theorem funcRefs_cons_ns (k : String) (i : Nat) (k2 : Kind) (nm ab : String)
    (r : Option Element) (cs2 rest : List (String × Node)) :
    funcRefs ((k, Node.ns i k2 nm ab r cs2) :: rest) = funcRefs rest := by
  simp [funcRefs]

theorem nsChildrenOf_cons_leaf (k : String) (i : Nat) (nm ab : String) (r : Element)
    (rest : List (String × Node)) :
    nsChildrenOf ((k, Node.leaf i nm ab r) :: rest) = nsChildrenOf rest := by
  simp [nsChildrenOf]

theorem nsChildrenOf_cons_ns (k : String) (i : Nat) (k2 : Kind) (nm ab : String)
    (r : Option Element) (cs2 rest : List (String × Node)) :
    nsChildrenOf ((k, Node.ns i k2 nm ab r cs2) :: rest)
      = Node.ns i k2 nm ab r cs2 :: nsChildrenOf rest := by
  simp [nsChildrenOf]

theorem exceptMapAll_cons {α β : Type} (f : α → Except String (List β)) (a : α)
    (rest : List α) :
    exceptMapAll f (a :: rest)
      = match f a with
        | Except.error m => Except.error m
        | Except.ok b =>
          match exceptMapAll f rest with
          | Except.error m => Except.error m
          | Except.ok bs => Except.ok (b :: bs) := rfl

theorem genFuncs_cons_leaf (db : DB) (k : String) (i : Nat) (nm ab : String) (r : Element)
    (rest : List (String × Node)) :
    genFuncs db ((k, Node.leaf i nm ab r) :: rest)
      = match functionGenerate db r with
        | Except.error m => Except.error m
        | Except.ok a =>
          match genFuncs db rest with
          | Except.error m => Except.error m
          | Except.ok b => Except.ok (a ++ b) := by
  simp only [genFuncs]
  cases functionGenerate db r <;> cases genFuncs db rest <;> simp [bind, Except.bind]

theorem genChildren_cons_ns (db : DB) (k : String) (i : Nat) (k2 : Kind) (nm ab : String)
    (r : Option Element) (cs2 rest : List (String × Node)) :
    genChildren db ((k, Node.ns i k2 nm ab r cs2) :: rest)
      = match generate_namespace db (Node.ns i k2 nm ab r cs2) with
        | Except.error m => Except.error m
        | Except.ok sub =>
          match genChildren db rest with
          | Except.error m => Except.error m
          | Except.ok more => Except.ok (nsGenerate (Node.ns i k2 nm ab r cs2) ++ sub ++ more) := by
  simp only [genChildren]
  cases generate_namespace db (Node.ns i k2 nm ab r cs2) <;> cases genChildren db rest <;>
    simp [bind, Except.bind]

theorem genFuncs_eq (db : DB) (cs : List (String × Node)) :
    genFuncs db cs = (exceptMapAll (functionGenerate db) (funcRefs cs)).map List.flatten := by
  induction cs with
  | nil => rfl
  | cons c rest ih =>
    obtain ⟨k, node⟩ := c
    cases node with
    | leaf i nm ab r =>
      rw [genFuncs_cons_leaf, funcRefs_cons_leaf, exceptMapAll_cons, ih]
      cases functionGenerate db r with
      | error m => simp [Except.map]
      | ok a =>
        cases exceptMapAll (functionGenerate db) (funcRefs rest) with
        | error m => simp [Except.map]
        | ok bs => simp [Except.map]
    | ns i k2 nm ab r cs2 =>
      have h1 : genFuncs db ((k, Node.ns i k2 nm ab r cs2) :: rest) = genFuncs db rest := by
        simp only [genFuncs]
      rw [h1, funcRefs_cons_ns, ih]

theorem genChildren_eq (db : DB) (cs : List (String × Node)) :
    genChildren db cs = (exceptMapAll (renderNsChild db) (nsChildrenOf cs)).map List.flatten := by
  induction cs with
  | nil => rfl
  | cons c rest ih =>
    obtain ⟨k, node⟩ := c
    cases node with
    | leaf i nm ab r =>
      have h1 : genChildren db ((k, Node.leaf i nm ab r) :: rest) = genChildren db rest := by
        simp only [genChildren]
      rw [h1, nsChildrenOf_cons_leaf, ih]
    | ns i k2 nm ab r cs2 =>
      rw [genChildren_cons_ns, nsChildrenOf_cons_ns, exceptMapAll_cons, ih]
      simp only [renderNsChild]
      cases generate_namespace db (Node.ns i k2 nm ab r cs2) with
      | error m => simp [Except.map]
      | ok sub =>
        cases exceptMapAll (renderNsChild db) (nsChildrenOf rest) with
        | error m => simp [Except.map]
        | ok bs => simp [Except.map]

/-- Claim C6: a successfully rendered namespace node consists of the
sections of all direct `Function` children first (in the insertion order of
the child mapping), followed by, for each namespace child in insertion
order, its own section and its depth-first rendered subtree. -/
theorem c6_traversal_order (db : DB) (i : Nat) (k : Kind) (nm ab : String)
    (r : Option Element) (cs : List (String × Node)) (out : List String)
    (hok : generate_namespace db (Node.ns i k nm ab r cs) = Except.ok out) :
    ∃ fparts nparts,
      exceptMapAll (functionGenerate db) (funcRefs cs) = Except.ok fparts ∧
      exceptMapAll (renderNsChild db) (nsChildrenOf cs) = Except.ok nparts ∧
      out = fparts.flatten ++ nparts.flatten := by
  simp only [generate_namespace] at hok
  cases hf : genFuncs db cs with
  | error m => rw [hf] at hok; cases hok
  | ok fs =>
    rw [hf] at hok
    cases hc : genChildren db cs with
    | error m =>
      rw [hc] at hok
      simp [bind, Except.bind] at hok
    | ok rest =>
      rw [hc] at hok
      simp only [bind, Except.bind, Except.ok.injEq] at hok
      have hf2 := hf
      rw [genFuncs_eq] at hf2
      have hc2 := hc
      rw [genChildren_eq] at hc2
      cases hfm : exceptMapAll (functionGenerate db) (funcRefs cs) with
      | error m => rw [hfm] at hf2; cases hf2
      | ok fparts =>
        cases hcm : exceptMapAll (renderNsChild db) (nsChildrenOf cs) with
        | error m => rw [hcm] at hc2; cases hc2
        | ok nparts =>
          rw [hfm] at hf2
          rw [hcm] at hc2
          simp only [Except.map, Except.ok.injEq] at hf2 hc2
          exact ⟨fparts, nparts, rfl, rfl, by rw [← hok, hf2, hc2]⟩

theorem c6_traversal_order_witness :
    ∃ fparts nparts,
      exceptMapAll (functionGenerate []) (funcRefs c6Children) = Except.ok fparts ∧
      exceptMapAll (renderNsChild []) (nsChildrenOf c6Children) = Except.ok nparts ∧
      ["#### Function `m.f` \n", "\n", "\n", "\n", "<details><summary>Source</summary>",
        "\n```python", "", "```\n", "</details>\n", "## Module `m` \n"]
        = fparts.flatten ++ nparts.flatten :=
  c6_traversal_order [] 0 Kind.namespaceK "root" "" none c6Children _ rfl

/-! ## Claim C7: insertion failure condition and atomicity -/

theorem walk_append (t : Node) (ps qs : List String) :
    walk t (ps ++ qs)
      = match walk t ps with
        | none => none
        | some m => walk m qs := by
  induction ps generalizing t with
  | nil => simp [walk]
  | cons p ps ih =>
    simp only [List.cons_append, walk]
    cases childGet? t p with
    | none => rfl
    | some c => exact ih c

theorem walk_none_imp (t : Node) (qs : List String) (h : walk t qs = none) :
    ∃ i, i ≤ qs.length ∧ ¬ nsAt t (qs.take i) := by
  induction qs generalizing t with
  | nil => simp [walk] at h
  | cons p ps ih =>
    cases hc : childGet? t p with
    | none =>
      refine ⟨1, by simp, ?_⟩
      rintro ⟨n, hn, _⟩
      simp only [List.take_succ_cons, List.take_zero] at hn
      simp [walk, hc] at hn
    | some c =>
      have hsub : walk c ps = none := by
        simp only [walk, hc] at h
        exact h
      obtain ⟨i, hi, hni⟩ := ih c hsub
      refine ⟨i + 1, by simpa using hi, ?_⟩
      rintro ⟨n, hn, hns⟩
      apply hni
      refine ⟨n, ?_, hns⟩
      simp only [List.take_succ_cons, walk, hc] at hn
      exact hn

theorem nsAt_take_of_walk_ns (t : Node) (qs : List String) (n : Node)
    (h : walk t qs = some n) (hn : n.isNsNode = true) (i : Nat) (_hi : i ≤ qs.length) :
    nsAt t (qs.take i) := by
  have hsplit : walk t (qs.take i ++ qs.drop i) = some n := by
    rw [List.take_append_drop]
    exact h
  rw [walk_append] at hsplit
  cases hm : walk t (qs.take i) with
  | none => rw [hm] at hsplit; cases hsplit
  | some m =>
    rw [hm] at hsplit
    refine ⟨m, hm, ?_⟩
    cases hdrop : qs.drop i with
    | nil =>
      rw [hdrop] at hsplit
      simp only [walk, Option.some.injEq] at hsplit
      rw [hsplit]
      exact hn
    | cons p ps =>
      rw [hdrop] at hsplit
      cases m with
      | leaf i2 nm ab r => simp [walk, childGet?] at hsplit
      | ns i2 k nm ab r cs => rfl

theorem group_some_inv (e : Element) (st st2 : BuildState) (h : group e st = some st2) :
    ∃ i2 k2 nm2 ab2 r2 cs2,
      walk st.root (parentPathOf e) = some (Node.ns i2 k2 nm2 ab2 r2 cs2) ∧
      st2 = { root := setChild st.root (parentPathOf e)
                 (mkNode st.next (classify e) (localNameOf e) e (fqnOf e))
              name_db := dictInsert (fqnOf e) (newEntry e st.next) st.name_db
              next := st.next + 1 } := by
  simp only [group] at h
  cases hw : walk st.root (parentPathOf e) with
  | none => rw [hw] at h; cases h
  | some m =>
    rw [hw] at h
    cases m with
    | leaf i2 nm2 ab2 r2 => cases h
    | ns i2 k2 nm2 ab2 r2 cs2 =>
      exact ⟨i2, k2, nm2, ab2, r2, cs2, rfl, (Option.some.injEq _ _).mp h |>.symm⟩

/-- Claim C7: `group` fails exactly when some proper prefix of the
qualified-name path has no namespace node in the tree (the failure happens
before any mutation, so tree and registry are untouched — in this embedding
a failing insert returns `none` and the state is unchanged by construction);
a successful insert produces exactly the state with the new node added to
the walked parent and the qualified name registered. -/
theorem c7_insert_failure_and_success (e : Element) (st : BuildState) :
    (group e st = none ↔
      ∃ i, i ≤ (parentPathOf e).length ∧ ¬ nsAt st.root ((parentPathOf e).take i)) ∧
    (∀ st2, group e st = some st2 →
      st2 = { root := setChild st.root (parentPathOf e)
                 (mkNode st.next (classify e) (localNameOf e) e (fqnOf e))
              name_db := dictInsert (fqnOf e) (newEntry e st.next) st.name_db
              next := st.next + 1 }) := by
  constructor
  · constructor
    · intro hfail
      cases hw : walk st.root (parentPathOf e) with
      | none => exact walk_none_imp _ _ hw
      | some m =>
        cases m with
        | ns i2 k2 nm2 ab2 r2 cs2 =>
          exfalso
          simp only [group, hw] at hfail
          exact Option.noConfusion hfail
        | leaf i2 nm2 ab2 r2 =>
          refine ⟨(parentPathOf e).length, le_refl _, ?_⟩
          rintro ⟨n, hn, hns⟩
          rw [List.take_length] at hn
          rw [hw] at hn
          cases hn
          cases hns
    · intro ⟨i, hi, hni⟩
      cases hg : group e st with
      | none => rfl
      | some st2 =>
        exfalso
        obtain ⟨i2, k2, nm2, ab2, r2, cs2, hw, _⟩ := group_some_inv e st st2 hg
        exact hni (nsAt_take_of_walk_ns st.root (parentPathOf e) _ hw rfl i hi)
  · intro st2 h
    obtain ⟨i2, k2, nm2, ab2, r2, cs2, hw, hst⟩ := group_some_inv e st st2 h
    exact hst

theorem c7_insert_failure_and_success_witness :
    ∃ i, i ≤ (parentPathOf funB).length ∧ ¬ nsAt initState.root ((parentPathOf funB).take i) :=
  (c7_insert_failure_and_success funB initState).1.mp rfl

/-! ## Claim C1: tree/registry consistency -/

theorem splitDotGo_ne_nil (l cur : List Char) : splitDotGo l cur ≠ [] := by
  induction l generalizing cur with
  | nil => simp [splitDotGo]
  | cons c rest ih =>
    simp only [splitDotGo]
    split
    · simp
    · exact ih _

theorem pathOf_ne_nil (e : Element) : pathOf e ≠ [] :=
  splitDotGo_ne_nil _ _

theorem dropLast_append_getLastD {α : Type} (l : List α) (d : α) (h : l ≠ []) :
    l.dropLast ++ [l.getLastD d] = l := by
  induction l generalizing d with
  | nil => exact absurd rfl h
  | cons a t ih =>
    cases t with
    | nil => rfl
    | cons b t2 =>
      have hrec := ih a (by simp)
      simp only [List.dropLast_cons₂, List.cons_append, List.getLastD_cons]
      simp only [List.getLastD_cons] at hrec
      rw [hrec]

theorem parentPath_append_localName (e : Element) :
    parentPathOf e ++ [localNameOf e] = pathOf e :=
  dropLast_append_getLastD (pathOf e) "" (pathOf_ne_nil e)

theorem dictGet?_insert_self {α : Type} (k : String) (v : α) (l : List (String × α)) :
    dictGet? k (dictInsert k v l) = some v := by
  induction l with
  | nil => simp [dictGet?, dictInsert]
  | cons q rest ih =>
    by_cases hk : q.1 = k
    · simp [dictInsert, dictGet?, hk]
    · simp only [dictInsert]
      rw [if_neg ?_]
      · simp only [dictGet?]
        rw [if_neg hk]
        exact ih
      · exact hk

theorem dictGet?_insert_ne {α : Type} (k k2 : String) (v : α) (l : List (String × α))
    (h : k2 ≠ k) :
    dictGet? k2 (dictInsert k v l) = dictGet? k2 l := by
  induction l with
  | nil =>
    simp only [dictInsert, dictGet?]
    rw [if_neg (fun hc => h hc.symm)]
  | cons q rest ih =>
    by_cases hk : q.1 = k
    · subst hk
      simp only [dictInsert, if_pos rfl, dictGet?]
      rw [if_neg (fun hc => h hc.symm), if_neg (fun hc => h hc.symm)]
    · simp only [dictInsert, if_neg hk, dictGet?]
      by_cases hk2 : q.1 = k2
      · rw [if_pos hk2, if_pos hk2]
      · rw [if_neg hk2, if_neg hk2]
        exact ih

theorem dictGet?_mapAt_self (k : String) (f : Node → Node) (l : List (String × Node))
    (v : Node) (h : dictGet? k l = some v) :
    dictGet? k (dictMapAt k f l) = some (f v) := by
  induction l with
  | nil => cases h
  | cons q rest ih =>
    by_cases hk : q.1 = k
    · simp only [dictGet?, if_pos hk, Option.some.injEq] at h
      subst h
      simp [dictMapAt, hk, dictGet?]
    · simp only [dictGet?, if_neg hk] at h
      simp only [dictMapAt, if_neg hk, dictGet?]
      exact ih h

theorem dictGet?_mapAt_ne (k k2 : String) (f : Node → Node) (l : List (String × Node))
    (h : k2 ≠ k) :
    dictGet? k2 (dictMapAt k f l) = dictGet? k2 l := by
  induction l with
  | nil => rfl
  | cons q rest ih =>
    by_cases hk : q.1 = k
    · subst hk
      simp only [dictMapAt, if_pos rfl, dictGet?]
      rw [if_neg (fun hc => h hc.symm), if_neg (fun hc => h hc.symm)]
    · simp only [dictMapAt, if_neg hk, dictGet?]
      by_cases hk2 : q.1 = k2
      · rw [if_pos hk2, if_pos hk2]
      · rw [if_neg hk2, if_neg hk2]
        exact ih

theorem mkNode_nodeName (i : Nat) (k : Kind) (nm : String) (e : Element) (ab : String) :
    (mkNode i k nm e ab).nodeName = nm := by
  cases k <;> rfl

theorem mkNode_topData (i : Nat) (k : Kind) (nm : String) (e : Element) (ab : String) :
    (mkNode i k nm e ab).topData = (i, k, nm, ab, some e) := by
  cases k <;> rfl

theorem mkNode_childGet (i : Nat) (k : Kind) (nm : String) (e : Element) (ab : String)
    (q : String) :
    childGet? (mkNode i k nm e ab) q = none := by
  cases k <;> rfl

theorem setChild_topData (t : Node) (ps : List String) (v : Node) :
    (setChild t ps v).topData = t.topData := by
  cases t <;> cases ps <;> rfl

theorem walk_setChild_parent (ps : List String) (t v : Node) (i2 : Nat) (k2 : Kind)
    (nm2 ab2 : String) (r2 : Option Element) (cs2 : List (String × Node))
    (hw : walk t ps = some (Node.ns i2 k2 nm2 ab2 r2 cs2)) :
    walk (setChild t ps v) ps
      = some (Node.ns i2 k2 nm2 ab2 r2 (dictInsert v.nodeName v cs2)) := by
  induction ps generalizing t with
  | nil =>
    simp only [walk, Option.some.injEq] at hw
    subst hw
    rfl
  | cons p ps ih =>
    cases t with
    | leaf i3 nm3 ab3 r3 => simp [walk, childGet?] at hw
    | ns i3 k3 nm3 ab3 r3 cs3 =>
      simp only [walk, childGet?] at hw
      cases hc : dictGet? p cs3 with
      | none => rw [hc] at hw; cases hw
      | some c =>
        rw [hc] at hw
        simp only [setChild, walk, childGet?]
        rw [dictGet?_mapAt_self p _ cs3 c hc]
        exact ih c hw

theorem walk_setChild_other (ps : List String) (t v : Node) (i2 : Nat) (k2 : Kind)
    (nm2 ab2 : String) (r2 : Option Element) (cs2 : List (String × Node))
    (hw : walk t ps = some (Node.ns i2 k2 nm2 ab2 r2 cs2))
    (hfresh : dictGet? v.nodeName cs2 = none)
    (hvempty : ∀ q, childGet? v q = none) :
    ∀ qs, qs ≠ ps ++ [v.nodeName] →
      (walk (setChild t ps v) qs).map Node.topData = (walk t qs).map Node.topData := by
  induction ps generalizing t with
  | nil =>
    intro qs hqs
    simp only [walk, Option.some.injEq] at hw
    subst hw
    simp only [List.nil_append] at hqs
    cases qs with
    | nil => rfl
    | cons q qr =>
      simp only [setChild, walk, childGet?]
      by_cases hq : q = v.nodeName
      · subst hq
        rw [dictGet?_insert_self, hfresh]
        cases qr with
        | nil => exact absurd rfl hqs
        | cons q2 qr2 =>
          simp only [walk, hvempty q2]
      · rw [dictGet?_insert_ne _ _ _ _ (fun hc => hq hc)]
  | cons p ps ih =>
    intro qs hqs
    cases t with
    | leaf i3 nm3 ab3 r3 => simp [walk, childGet?] at hw
    | ns i3 k3 nm3 ab3 r3 cs3 =>
      simp only [walk, childGet?] at hw
      cases hc : dictGet? p cs3 with
      | none => rw [hc] at hw; cases hw
      | some c =>
        rw [hc] at hw
        cases qs with
        | nil => rfl
        | cons q qr =>
          simp only [setChild, walk, childGet?]
          by_cases hq : q = p
          · subst hq
            rw [dictGet?_mapAt_self q _ cs3 c hc, hc]
            have hqr : qr ≠ ps ++ [v.nodeName] := by
              intro hcq
              apply hqs
              rw [List.cons_append, hcq]
            exact ih c hw qr hqr
          · rw [dictGet?_mapAt_ne _ _ _ _ hq]

theorem buildAll_inv (es : List Element) :
    ∀ (st st2 : BuildState) (doneP : List (List String)),
    (∀ K ent, dictGet? K st.name_db = some ent → consistentKey st K ent ∧ splitDot K ∈ doneP) →
    (∀ qs n, qs ≠ [] → walk st.root qs = some n → qs ∈ doneP) →
    (∀ e2 ∈ es, pathOf e2 ∉ doneP) →
    List.Pairwise Ne (es.map pathOf) →
    buildAll es st = some st2 →
    ∀ K ent, dictGet? K st2.name_db = some ent → consistentKey st2 K ent := by
  induction es with
  | nil =>
    intro st st2 doneP hreg _hreach _hnew _hpw hb K ent hent
    simp only [buildAll, Option.some.injEq] at hb
    subst hb
    exact (hreg K ent hent).1
  | cons e rest ih =>
    intro st st2 doneP hreg hreach hnew hpw hb
    simp only [buildAll] at hb
    cases hg : group e st with
    | none => rw [hg] at hb; cases hb
    | some st1 =>
      rw [hg] at hb
      obtain ⟨i2, k2, nm2, ab2, r2, cs2, hw, hst1⟩ := group_some_inv e st st1 hg
      have hvname : (mkNode st.next (classify e) (localNameOf e) e (fqnOf e)).nodeName
          = localNameOf e := mkNode_nodeName _ _ _ _ _
      have hvempty := mkNode_childGet st.next (classify e) (localNameOf e) e (fqnOf e)
      have hpath := parentPath_append_localName e
      have hfresh : dictGet? (localNameOf e) cs2 = none := by
        cases hcc : dictGet? (localNameOf e) cs2 with
        | none => rfl
        | some c =>
          exfalso
          have hwc : walk st.root (pathOf e) = some c := by
            rw [← hpath, walk_append, hw]
            simp [walk, childGet?, hcc]
          exact hnew e (List.mem_cons_self _ _) (hreach (pathOf e) c (pathOf_ne_nil e) hwc)
      have hfresh2 : dictGet? (mkNode st.next (classify e) (localNameOf e) e (fqnOf e)).nodeName
          cs2 = none := by rw [hvname]; exact hfresh
      have hroot1 : st1.root = setChild st.root (parentPathOf e)
          (mkNode st.next (classify e) (localNameOf e) e (fqnOf e)) := by rw [hst1]
      have hdb1 : st1.name_db = dictInsert (fqnOf e) (newEntry e st.next) st.name_db := by
        rw [hst1]
      refine ih st1 st2 (doneP ++ [pathOf e]) ?_ ?_ ?_ ?_ hb
      · -- the extended registry invariant
        intro K ent hent
        rw [hdb1] at hent
        by_cases hK : K = fqnOf e
        · subst hK
          rw [dictGet?_insert_self] at hent
          have hent2 : newEntry e st.next = ent := by
            injection hent
          have hgoal : walk (setChild st.root (parentPathOf e)
              (mkNode st.next (classify e) (localNameOf e) e (fqnOf e)))
              (parentPathOf e ++ [localNameOf e])
              = some (mkNode st.next (classify e) (localNameOf e) e (fqnOf e)) := by
            rw [walk_append,
              walk_setChild_parent (parentPathOf e) st.root _ i2 k2 nm2 ab2 r2 cs2 hw]
            simp only [walk, childGet?]
            rw [hvname, dictGet?_insert_self]
          constructor
          · refine ⟨mkNode st.next (classify e) (localNameOf e) e (fqnOf e), ?_, ?_⟩
            · show walk st1.root (pathOf e) = _
              rw [hroot1, ← hpath]
              exact hgoal
            · rw [mkNode_topData, ← hent2]
              rfl
          · refine List.mem_append_right _ ?_
            show pathOf e ∈ [pathOf e]
            exact List.mem_singleton_self _
        · rw [dictGet?_insert_ne _ _ _ _ hK] at hent
          obtain ⟨⟨n, hwalkK, htop⟩, hdone⟩ := hreg K ent hent
          have hKne : splitDot K ≠ pathOf e := fun hc =>
            hnew e (List.mem_cons_self _ _) (hc ▸ hdone)
          have hother := walk_setChild_other (parentPathOf e) st.root
            (mkNode st.next (classify e) (localNameOf e) e (fqnOf e)) i2 k2 nm2 ab2 r2 cs2
            hw hfresh2 hvempty (splitDot K) (by rw [hvname, hpath]; exact hKne)
          rw [hwalkK] at hother
          constructor
          · cases hx : walk (setChild st.root (parentPathOf e)
                (mkNode st.next (classify e) (localNameOf e) e (fqnOf e))) (splitDot K) with
            | none => rw [hx] at hother; simp at hother
            | some n2 =>
              rw [hx] at hother
              simp only [Option.map_some'] at hother
              refine ⟨n2, ?_, ?_⟩
              · rw [hroot1]
                exact hx
              · rw [← htop]
                injection hother
          · exact List.mem_append_left _ hdone
      · -- every reachable nonempty path is recorded
        intro qs n hqsne hwalk
        rw [hroot1] at hwalk
        by_cases hqe : qs = pathOf e
        · rw [hqe]
          exact List.mem_append_right _ (List.mem_singleton_self _)
        · have hother := walk_setChild_other (parentPathOf e) st.root
            (mkNode st.next (classify e) (localNameOf e) e (fqnOf e)) i2 k2 nm2 ab2 r2 cs2
            hw hfresh2 hvempty qs (by rw [hvname, hpath]; exact hqe)
          rw [hwalk] at hother
          cases hx : walk st.root qs with
          | none => rw [hx] at hother; simp at hother
          | some n2 => exact List.mem_append_left _ (hreach qs n2 hqsne hx)
      · -- the remaining elements are still unrecorded
        intro e2 he2 hc
        rcases List.mem_append.mp hc with hc | hc
        · exact hnew e2 (List.mem_cons_of_mem _ he2) hc
        · have hpw2 : (∀ a ∈ rest, ¬ pathOf e = pathOf a) ∧
              List.Pairwise Ne (List.map pathOf rest) := by simpa using hpw
          exact hpw2.1 e2 he2 (List.mem_singleton.mp hc).symm
      · have hpw2 : (∀ a ∈ rest, ¬ pathOf e = pathOf a) ∧
            List.Pairwise Ne (List.map pathOf rest) := by simpa using hpw
        exact hpw2.2

/-- Claim C1 counterexample: a complete build (three successful `group`
calls) whose registry key `a.b` is unreachable in the tree.  `modA` (module
`a`) and `pkgA` (package initializer `a.__init__`) have distinct `__name__`s
— so deduplication keeps both — but the same qualified name `a`; inserting
`pkgA` overwrites the tree slot `a` with a fresh empty Package node, leaving
the registry entry `a.b` dangling. -/
theorem c1_counterexample :
    buildAll c1CexElems initState = some c1CexState ∧
    dictGet? "a.b" c1CexState.name_db = some ⟨2, Kind.func, "b", "a.b", funB⟩ ∧
    walk c1CexState.root (splitDot "a.b") = none :=
  ⟨rfl, rfl, rfl⟩

/-- Claim C1 (amended): after a complete build whose inserted elements have
pairwise-distinct qualified-name paths, every key of the ElementRegistry,
walked from the root by splitting on dots, reaches the very node the
registry maps it to (same identity, kind, name, absolute name and element
back-reference). -/
theorem c1_tree_registry_consistency (es : List Element) (st2 : BuildState)
    (hdistinct : List.Pairwise Ne (es.map pathOf))
    (hb : buildAll es initState = some st2) :
    ∀ K ent, dictGet? K st2.name_db = some ent → consistentKey st2 K ent := by
  refine buildAll_inv es initState st2 [] ?_ ?_ ?_ hdistinct hb
  · intro K ent hent
    cases hent
  · intro qs n hqs hwalk
    exfalso
    cases qs with
    | nil => exact hqs rfl
    | cons q qr => simp [walk, childGet?, dictGet?, initState] at hwalk
  · intro e2 _ hc
    cases hc

theorem c1_tree_registry_consistency_witness :
    consistentKey c4State "pkg.Widget" ⟨3, Kind.cls, "Widget", "pkg.Widget", widgetAtPkg⟩ :=
  c1_tree_registry_consistency [pkgElem, modElem, widgetAtPkg] c4State (by decide) rfl
    "pkg.Widget" ⟨3, Kind.cls, "Widget", "pkg.Widget", widgetAtPkg⟩ rfl
